import Mathlib

/-!
Verification of the orion repository's SHA-384 streaming hash, constant-time
comparison, and password-hash envelope, against its natural-language
specification.

The Rust sources embedded here are:
- `src/hazardous/hash/sha2/sha384.rs` (the `Sha384` state machine),
- `src/utilities/util.rs` (`compare_ct`),
- `src/pwhash.rs` (`hash_password`, `verify_password_hash`).

The SHA-512 compression kernel, the `func_update!` macro body, and the
`pbkdf2`/`hmac` modules are referenced by those files but their sources are
not part of the repository snapshot; they are modelled from the
specification (FIPS 180-4 compression, spec sections 4.1, 4.2, 4.4, 4.5) and
each such definition carries a doc comment starting `Modelled from the
spec:`.

Machine integers: Rust `u64` values are embedded as `Nat` reduced modulo
`2 ^ 64` at every operation that can overflow; bytes are `Nat` values below
256. Rust panics (`unwrap` on `None`) are embedded as `Option.none`;
recoverable `Result` errors as `Except.error`.
-/

namespace Orion

/-- The modulus of a 64-bit machine word. -/
def W64 : Nat := 2 ^ 64

/-- Rust's `UnknownCryptoError` unit struct. -/
inductive UnknownCryptoError
  | mk
deriving DecidableEq, Repr

/-- Rust's `ValidationCryptoError` unit struct (`pwhash.rs` error type). -/
inductive ValidationCryptoError
  | mk
deriving DecidableEq, Repr

/-- Decidable equality for `Except` results, used to evaluate the model on
concrete inputs. -/
instance {ε α : Type} [DecidableEq ε] [DecidableEq α] : DecidableEq (Except ε α)
  | .error e, .error f =>
    if h : e = f then .isTrue (by rw [h])
    else .isFalse (by intro hh; injection hh; exact h (by assumption))
  | .error _, .ok _ => .isFalse (by intro hh; exact Except.noConfusion hh)
  | .ok _, .error _ => .isFalse (by intro hh; exact Except.noConfusion hh)
  | .ok x, .ok y =>
    if h : x = y then .isTrue (by rw [h])
    else .isFalse (by intro hh; injection hh; exact h (by assumption))

/-- Wrapping 64-bit addition. -/
def wadd (x y : Nat) : Nat := (x + y) % W64

/-- Right rotation of a 64-bit word by `n` bits (`u64::rotate_right`). -/
def rotr (n : Nat) (x : Nat) : Nat := x / 2 ^ n + x % 2 ^ n * 2 ^ (64 - n)

/-- Logical right shift of a 64-bit word. -/
def shr (n : Nat) (x : Nat) : Nat := x / 2 ^ n

/-- Bitwise complement of a 64-bit word. -/
def wnot (x : Nat) : Nat := Nat.xor x (W64 - 1)

/-- Modelled from the spec: the `Ch` function of FIPS 180-4 (section 4.1),
used by the missing `sha2` module shared code. -/
def ch (x y z : Nat) : Nat := Nat.xor (Nat.land x y) (Nat.land (wnot x) z)

/-- Modelled from the spec: the `Maj` function of FIPS 180-4 (section 4.1). -/
def maj (x y z : Nat) : Nat :=
  Nat.xor (Nat.xor (Nat.land x y) (Nat.land x z)) (Nat.land y z)

/-- Modelled from the spec: `Σ0` of FIPS 180-4, from the missing
`sha512.rs`. -/
def big_sigma_0 (x : Nat) : Nat := Nat.xor (Nat.xor (rotr 28 x) (rotr 34 x)) (rotr 39 x)

/-- Modelled from the spec: `Σ1` of FIPS 180-4. -/
def big_sigma_1 (x : Nat) : Nat := Nat.xor (Nat.xor (rotr 14 x) (rotr 18 x)) (rotr 41 x)

/-- Modelled from the spec: `σ0` of FIPS 180-4. -/
def small_sigma_0 (x : Nat) : Nat := Nat.xor (Nat.xor (rotr 1 x) (rotr 8 x)) (shr 7 x)

/-- Modelled from the spec: `σ1` of FIPS 180-4. -/
def small_sigma_1 (x : Nat) : Nat := Nat.xor (Nat.xor (rotr 19 x) (rotr 61 x)) (shr 6 x)

/-- Modelled from the spec: the 80 SHA-512 round constants of FIPS 180-4
(`sha512.rs` `K`, re-exported by `sha384.rs` line 88). -/
def K : List Nat := [
  4794697086780616226, 8158064640168781261, 13096744586834688815,
  16840607885511220156, 4131703408338449720, 6480981068601479193,
  10538285296894168987, 12329834152419229976, 15566598209576043074,
  1334009975649890238, 2608012711638119052, 6128411473006802146,
  8268148722764581231, 9286055187155687089, 11230858885718282805,
  13951009754708518548, 16472876342353939154, 17275323862435702243,
  1135362057144423861, 2597628984639134821, 3308224258029322869,
  5365058923640841347, 6679025012923562964, 8573033837759648693,
  10970295158949994411, 12119686244451234320, 12683024718118986047,
  13788192230050041572, 14330467153632333762, 15395433587784984357,
  489312712824947311, 1452737877330783856, 2861767655752347644,
  3322285676063803686, 5560940570517711597, 5996557281743188959,
  7280758554555802590, 8532644243296465576, 9350256976987008742,
  10552545826968843579, 11727347734174303076, 12113106623233404929,
  14000437183269869457, 14369950271660146224, 15101387698204529176,
  15463397548674623760, 17586052441742319658, 1182934255886127544,
  1847814050463011016, 2177327727835720531, 2830643537854262169,
  3796741975233480872, 4115178125766777443, 5681478168544905931,
  6601373596472566643, 7507060721942968483, 8399075790359081724,
  8693463985226723168, 9568029438360202098, 10144078919501101548,
  10430055236837252648, 11840083180663258601, 13761210420658862357,
  14299343276471374635, 14566680578165727644, 15097957966210449927,
  16922976911328602910, 17689382322260857208, 500013540394364858,
  748580250866718886, 1242879168328830382, 1977374033974150939,
  2944078676154940804, 3659926193048069267, 4368137639120453308,
  4836135668995329356, 5532061633213252278, 6448918945643986474,
  6902733635092675308, 7801388544844847127]

/-- The SHA-384 initial hash value `H0` (`sha384.rs` lines 93-96). -/
def H0 : List Nat := [
  14680500436340154072, 7105036623409894663, 10473403895298186519,
  1526699215303891257, 7436329637833083697, 10282925794625328401,
  15784041429090275239, 5167115440072839076]

/-- Modelled from the spec: the SHA-512 initial hash value of FIPS 180-4
(from the missing `sha512.rs`), used by the password-hash model. -/
def H0_512 : List Nat := [
  7640891576956012808, 13503953896175478587, 4354685564936845355,
  11912009170470909681, 5840696475078001361, 11170449401992604703,
  2270897969802886507, 6620516959819538809]

/-- Big-endian value of a byte list (most significant byte first). -/
def beWord (bs : List Nat) : Nat := bs.foldl (fun a b => a * 256 + b) 0

/-- Modelled from the spec: `load_u64_into_be` — parse a block as
big-endian 64-bit words (spec section 4.1). -/
def loadWords : List Nat → List Nat
  | b0 :: b1 :: b2 :: b3 :: b4 :: b5 :: b6 :: b7 :: rest =>
      beWord [b0, b1, b2, b3, b4, b5, b6, b7] :: loadWords rest
  | _ => []

/-- The eight big-endian bytes of a 64-bit word. -/
def wordBytesBE (w : Nat) : List Nat :=
  [w / 2 ^ 56 % 256, w / 2 ^ 48 % 256, w / 2 ^ 40 % 256, w / 2 ^ 32 % 256,
   w / 2 ^ 24 % 256, w / 2 ^ 16 % 256, w / 2 ^ 8 % 256, w % 256]

/-- Modelled from the spec: `store_u64_into_be` — serialize words as
big-endian bytes. -/
def storeWordsBE : List Nat → List Nat
  | [] => []
  | w :: ws => wordBytesBE w ++ storeWordsBE ws

/-- The sixteen big-endian bytes of a 128-bit value. -/
def be16Bytes (n : Nat) : List Nat :=
  [n / 2 ^ 120 % 256, n / 2 ^ 112 % 256, n / 2 ^ 104 % 256, n / 2 ^ 96 % 256,
   n / 2 ^ 88 % 256, n / 2 ^ 80 % 256, n / 2 ^ 72 % 256, n / 2 ^ 64 % 256,
   n / 2 ^ 56 % 256, n / 2 ^ 48 % 256, n / 2 ^ 40 % 256, n / 2 ^ 32 % 256,
   n / 2 ^ 24 % 256, n / 2 ^ 16 % 256, n / 2 ^ 8 % 256, n % 256]

/-- The eight working variables `a..h` of the compression loop. -/
structure Regs where
  a : Nat
  b : Nat
  c : Nat
  d : Nat
  e : Nat
  f : Nat
  g : Nat
  h : Nat
deriving DecidableEq, Repr

/-- Modelled from the spec: one round of the FIPS 180-4 SHA-512 compression
loop (spec section 4.1). -/
def round (r : Regs) (kt wt : Nat) : Regs :=
  let t1 := (r.h + big_sigma_1 r.e + ch r.e r.f r.g + kt + wt) % W64
  let t2 := (big_sigma_0 r.a + maj r.a r.b r.c) % W64
  ⟨(t1 + t2) % W64, r.a, r.b, r.c, (r.d + t1) % W64, r.e, r.f, r.g⟩

/-- Runs the compression rounds over the zipped (constant, schedule) list. -/
def roundsGo : List (Nat × Nat) → Regs → Regs
  | [], r => r
  | kw :: rest, r => roundsGo rest (round r kw.1 kw.2)

/-- Modelled from the spec: extend the 16 message words to the 80-entry
schedule.  The accumulator holds the schedule so far in reverse order. -/
def extendW : Nat → List Nat → List Nat
  | 0, acc => acc.reverse
  | n + 1, acc =>
      let wt := (small_sigma_1 (acc.getD 1 0) + acc.getD 6 0 +
                 small_sigma_0 (acc.getD 14 0) + acc.getD 15 0) % W64
      extendW n (wt :: acc)

/-- The 80-word message schedule of a 128-byte block. -/
def schedule (block : List Nat) : List Nat := extendW 64 (loadWords block).reverse

/-- Modelled from the spec: the FIPS 180-4 SHA-512 block compression
(section 4.1): schedule, 80 rounds, then feed-forward addition into the
chaining state. -/
def compress (state : List Nat) (block : List Nat) : List Nat :=
  let r0 : Regs := ⟨state.getD 0 0, state.getD 1 0, state.getD 2 0, state.getD 3 0,
                    state.getD 4 0, state.getD 5 0, state.getD 6 0, state.getD 7 0⟩
  let rf := roundsGo (K.zip (schedule block)) r0
  [wadd (state.getD 0 0) rf.a, wadd (state.getD 1 0) rf.b,
   wadd (state.getD 2 0) rf.c, wadd (state.getD 3 0) rf.d,
   wadd (state.getD 4 0) rf.e, wadd (state.getD 5 0) rf.f,
   wadd (state.getD 6 0) rf.g, wadd (state.getD 7 0) rf.h]

/-- Write `v` into `l` starting at position `start`, keeping the rest
(`l[start .. start + v.length) := v`). -/
def setRange (l : List Nat) (start : Nat) (v : List Nat) : List Nat :=
  l.take start ++ v ++ l.drop (start + v.length)

/-- The SHA-384 streaming state (`sha384.rs` lines 100-106).
`working_state` holds 8 words, `buffer` 128 bytes, `message_len` is the
`[u64; 2]` counter with index 0 the high word. -/
structure Sha384 where
  working_state : List Nat
  buffer : List Nat
  leftover : Nat
  message_len : Nat × Nat
  is_finalized : Bool
deriving DecidableEq, Repr

/-- The 128-bit value of the two-word `message_len` counter, read
big-endian (index 0 is the high word). -/
def mlenVal (s : Sha384) : Nat := s.message_len.1 * W64 + s.message_len.2

/-- `Sha384::new` (`sha384.rs` lines 158-166). -/
def Sha384.new : Sha384 :=
  ⟨H0, List.replicate 128 0, 0, (0, 0), false⟩

/-- `Sha384::reset` (`sha384.rs` lines 169-175). -/
def Sha384.reset (s : Sha384) : Sha384 :=
  { s with
    working_state := H0
    buffer := List.replicate 128 0
    leftover := 0
    message_len := (0, 0)
    is_finalized := false }

/-- `Sha384::increment_mlen` (`sha384.rs` lines 138-155).  `checked_shl(3)`
always succeeds (3 < 64) and wraps the shifted-out bits; the carry into the
high word uses `checked_add(1).unwrap()`, whose panic is embedded as
`none`. -/
def Sha384.increment_mlen (s : Sha384) (length : Nat) : Option Sha384 :=
  let len := length * 8 % W64
  let sum := s.message_len.2 + len
  if sum < W64 then
    some { s with message_len := (s.message_len.1, sum) }
  else if s.message_len.1 + 1 < W64 then
    some { s with message_len := (s.message_len.1 + 1, sum % W64) }
  else
    none

/-- Modelled from the spec: `process` generated by
`func_compress_and_process!` (`sha384.rs` line 135) — compress one block
taken from the argument, or from `self.buffer` when the argument is
`none`. -/
def Sha384.process (s : Sha384) (data : Option (List Nat)) : Sha384 :=
  match data with
  | some block => { s with working_state := compress s.working_state block }
  | none => { s with working_state := compress s.working_state s.buffer }

/-- Modelled from the spec (section 4.2): the tail phase of `update` — stash
a remainder shorter than a block in `buffer`, set `leftover`, and advance
`message_len` by the stashed byte count (data-model invariant: the counter
in bits equals 8 times the bytes absorbed so far). -/
def Sha384.stashTail (s : Sha384) (bytes : List Nat) : Option Sha384 :=
  if bytes.isEmpty then some s
  else
    ({ s with buffer := setRange s.buffer 0 bytes, leftover := bytes.length
     } : Sha384).increment_mlen bytes.length

/-- Modelled from the spec (section 4.2): the block phase of `update` —
process full blocks directly from the input, advancing `message_len` per
block, then stash the tail.  `fuel` bounds the recursion; every call site
passes `bytes.length`, which is enough fuel to consume all full blocks. -/
def Sha384.updateBlocks : Nat → Sha384 → List Nat → Option Sha384
  | 0, s, bytes => s.stashTail bytes
  | fuel + 1, s, bytes =>
    if 128 ≤ bytes.length then
      match (s.process (some (bytes.take 128))).increment_mlen 128 with
      | none => none
      | some s2 => Sha384.updateBlocks fuel s2 (bytes.drop 128)
    else s.stashTail bytes

/-- Modelled from the spec: `update` generated by `func_update!`
(`sha384.rs` line 177; spec section 4.2).  Fails if finalized; returns at
once on empty input; otherwise fills a present partial block first
(advancing the counter by the bytes absorbed, processing the block once
full), then processes full blocks and stashes the tail. -/
def Sha384.update (s : Sha384) (data : List Nat) :
    Option (Except UnknownCryptoError Sha384) :=
  if s.is_finalized then some (.error .mk)
  else if data.isEmpty then some (.ok s)
  else if s.leftover ≠ 0 then
    match ({ s with
        buffer := setRange s.buffer s.leftover
          (data.take (min (128 - s.leftover) data.length))
        leftover := s.leftover + min (128 - s.leftover) data.length } : Sha384
      ).increment_mlen (min (128 - s.leftover) data.length) with
    | none => none
    | some s2 =>
      if s2.leftover < 128 then some (.ok s2)
      else
        (({ s2.process none with leftover := 0 } : Sha384).updateBlocks
          (data.drop (min (128 - s.leftover) data.length)).length
          (data.drop (min (128 - s.leftover) data.length))).map .ok
  else
    (s.updateBlocks data.length data).map .ok

/-- `Sha384::_finalize_internal` (`sha384.rs` lines 180-216).  Returns the
state, the digest destination and the result; on the already-finalized
error path both come back untouched.  On success the 48-byte destination is
overwritten with the first six chaining words, big-endian. -/
def Sha384._finalize_internal (s : Sha384) (digest_dst : List Nat) :
    Sha384 × List Nat × Except UnknownCryptoError Unit :=
  if s.is_finalized then (s, digest_dst, .error .mk)
  else
    let s1 : Sha384 := { s with is_finalized := true }
    let s2 : Sha384 := { s1 with buffer := s1.buffer.set s1.leftover 0x80
                                 leftover := s1.leftover + 1 }
    let s3 : Sha384 := { s2 with buffer := s2.buffer.take s2.leftover ++
                                           List.replicate (128 - s2.leftover) 0 }
    let s4 : Sha384 :=
      if 128 - s3.leftover < 16 then
        let sp := s3.process none
        { sp with buffer := List.replicate (min sp.leftover 128) 0 ++
                            sp.buffer.drop sp.leftover }
      else s3
    let s5 : Sha384 :=
      { s4 with buffer := setRange s4.buffer 112
                  (wordBytesBE s4.message_len.1 ++ wordBytesBE s4.message_len.2) }
    let s6 := s5.process none
    (s6, storeWordsBE (s6.working_state.take 6), .ok ())

/-- `Sha384::finalize` (`sha384.rs` lines 220-225): run the internal
finalizer on a zeroed 48-byte destination and return the digest. -/
def Sha384.finalize (s : Sha384) : Sha384 × Except UnknownCryptoError (List Nat) :=
  let r := s._finalize_internal (List.replicate 48 0)
  (r.1, r.2.2.map fun _ => r.2.1)

/-- `Sha384::digest` (`sha384.rs` lines 229-233): one-shot
`new` + `update` + `finalize`. -/
def Sha384.digest (data : List Nat) : Option (Except UnknownCryptoError (List Nat)) :=
  match Sha384.new.update data with
  | none => none
  | some (.error e) => some (.error e)
  | some (.ok s) => some s.finalize.2

/-- Feed a list of chunks to the state with successive `update` calls. -/
def Sha384.updateAll (s : Sha384) : List (List Nat) → Option (Except UnknownCryptoError Sha384)
  | [] => some (.ok s)
  | c :: cs =>
    match s.update c with
    | none => none
    | some (.error e) => some (.error e)
    | some (.ok s') => s'.updateAll cs

/-- The streaming digest of a chunk partition: `new`, `update` on each
chunk in order, then `finalize`. -/
def streamingDigest (chunks : List (List Nat)) :
    Option (Except UnknownCryptoError (List Nat)) :=
  match Sha384.new.updateAll chunks with
  | none => none
  | some (.error e) => some (.error e)
  | some (.ok s) => some s.finalize.2

/-- `compare_ct` (`util.rs` lines 43-53): error on unequal lengths, then
`Ok(true)` on equal contents and `Err(UnknownCryptoError)` otherwise. -/
def compare_ct (a b : List Nat) : Except UnknownCryptoError Bool :=
  if a.length ≠ b.length then .error .mk
  else if a = b then .ok true
  else .error .mk

/-- Fuel-bounded functional absorption: compress every full 128-byte block
of `m` into the chain `h`, returning the final chain and the remainder
(shorter than a block).  `absorbSpec` instantiates the fuel with
`m.length`, which always suffices. -/
def chainRest : Nat → List Nat → List Nat → List Nat × List Nat
  | 0, h, m => (h, m)
  | fuel + 1, h, m =>
    if 128 ≤ m.length then chainRest fuel (compress h (m.take 128)) (m.drop 128)
    else (h, m)

/-- The chain and remainder after absorbing the whole byte stream `m`. -/
def absorbSpec (h : List Nat) (m : List Nat) : List Nat × List Nat :=
  chainRest m.length h m

/-- The abstraction relation between a `Sha384` state and the byte stream
`m` it has absorbed since `new`: chain and stashed tail agree with the
functional absorption of `m`, the counter holds `8 * m.length` in its two
in-range words, and the state is not finalized. -/
structure INV (s : Sha384) (m : List Nat) : Prop where
  ws : s.working_state = (absorbSpec H0 m).1
  tl : s.buffer.take s.leftover = (absorbSpec H0 m).2
  lo : s.leftover = m.length % 128
  buflen : s.buffer.length = 128
  m1 : s.message_len.1 < W64
  m2 : s.message_len.2 < W64
  mval : mlenVal s = 8 * m.length
  fin : s.is_finalized = false

/-- Modelled from the spec (section 4.4): SHA-512 padding — append `0x80`,
zero-fill so that 16 bytes remain in the last block, then the 128-bit
big-endian bit length. -/
def sha512_pad (m : List Nat) : List Nat :=
  m ++ 0x80 :: (List.replicate ((128 - (m.length + 17) % 128) % 128) 0 ++
    be16Bytes (8 * m.length))

/-- Modelled from the spec (sections 4.1, 4.4): the one-shot SHA-512 hash
used by the HMAC model — absorb the padded message from the SHA-512 initial
value and serialize all eight chaining words big-endian. -/
def sha512_hash (m : List Nat) : List Nat :=
  storeWordsBE (absorbSpec H0_512 (sha512_pad m)).1

/-- XOR two byte strings pointwise. -/
def xorBytes (a b : List Nat) : List Nat := List.zipWith Nat.xor a b

/-- Modelled from the spec (section 4.4): HMAC-SHA-512 — hash oversized
keys, zero-pad to the 128-byte blocksize, then the nested ipad/opad
hashes. -/
def hmac_sha512 (key msg : List Nat) : List Nat :=
  let k0 :=
    if 128 < key.length then sha512_hash key ++ List.replicate 64 0
    else key ++ List.replicate (128 - key.length) 0
  let ipad := k0.map fun b => Nat.xor b 0x36
  let opad := k0.map fun b => Nat.xor b 0x5c
  sha512_hash (opad ++ sha512_hash (ipad ++ msg))

/-- The four big-endian bytes of a 32-bit block index. -/
def be32Bytes (n : Nat) : List Nat :=
  [n / 2 ^ 24 % 256, n / 2 ^ 16 % 256, n / 2 ^ 8 % 256, n % 256]

/-- Modelled from the spec (section 4.5): the iterated-XOR chain
`U_2 … U_{j+1}` folded into the accumulator. -/
def pbkdf2F_go (password : List Nat) : Nat → List Nat → List Nat → List Nat
  | 0, _, acc => acc
  | j + 1, u, acc =>
    let u' := hmac_sha512 password u
    pbkdf2F_go password j u' (xorBytes acc u')

/-- Modelled from the spec (section 4.5): block `T_i` of PBKDF2 —
`U_1 = HMAC(P, S ‖ i_be32)`, `U_j = HMAC(P, U_{j-1})`, XORed together over
`c` iterations. -/
def pbkdf2F (password salt : List Nat) (c i : Nat) : List Nat :=
  let u1 := hmac_sha512 password (salt ++ be32Bytes i)
  pbkdf2F_go password (c - 1) u1 u1

/-- Concatenate blocks `T_1 … T_n`. -/
def pbkdf2Blocks (password salt : List Nat) (c : Nat) : Nat → List Nat
  | 0 => []
  | n + 1 => pbkdf2Blocks password salt c n ++ pbkdf2F password salt c n.succ

/-- Modelled from the spec (section 4.5): `pbkdf2::derive_key` — produce
`⌈dkLen/64⌉` blocks and truncate the concatenation to `dkLen` bytes. -/
def pbkdf2_derive_key (password salt : List Nat) (c dkLen : Nat) : List Nat :=
  (pbkdf2Blocks password salt c ((dkLen + 63) / 64)).take dkLen

/-- Modelled from the spec (sections 4.5, 7): `pbkdf2::verify` — recompute
the derived key into the 64-byte scratch and constant-time-compare it with
the expected digest; the compare failure carried by `UnknownCryptoError` is
converted to the validation error of the verify path. -/
def pbkdf2_verify (expected_dk password salt : List Nat) (iterations : Nat) :
    Except ValidationCryptoError Bool :=
  match compare_ct (pbkdf2_derive_key password salt iterations 64) expected_dk with
  | .ok b => .ok b
  | .error _ => .error .mk

/-- `hash_password` (`pwhash.rs` lines 64-73).  The 64-byte salt drawn from
the OS RNG at line 67 is passed in as the `salt` argument; the function
packs it with the 512 000-iteration PBKDF2-HMAC-SHA-512 derived key. -/
def hash_password (password salt : List Nat) : List Nat :=
  salt ++ pbkdf2_derive_key password salt 512000 64

/-- `verify_password_hash` (`pwhash.rs` lines 77-94): validation error
unless the envelope is exactly 128 bytes, then re-derive from the salt
prefix and compare against the digest suffix. -/
def verify_password_hash (expected_hash password : List Nat) :
    Except ValidationCryptoError Bool :=
  if expected_hash.length ≠ 128 then .error .mk
  else pbkdf2_verify (expected_hash.drop 64) password (expected_hash.take 64) 512000

/-- Projection used by concrete witnesses: the state of a successful
`update`/`updateAll` outcome. -/
def okState : Option (Except UnknownCryptoError Sha384) → Option Sha384
  | some (.ok s) => some s
  | _ => none

/-- The `leftover` field reached by absorbing 127 bytes into a fresh state
and finalizing (`none` if the update does not succeed). -/
def leftoverAfter127Finalize : Option Nat :=
  match Sha384.new.update (List.replicate 127 0) with
  | some (.ok s) => some ((s._finalize_internal (List.replicate 48 0)).1.leftover)
  | _ => none

/-- The chaining state after the padding performed by a successful
`_finalize_internal`: append `0x80` to the buffered tail; if at least 16
bytes remain in the block, zero-pad to byte 112 and finish with the 128-bit
big-endian bit count; otherwise fill the block with zeros, compress it, and
put the length field at the end of a second, zero block. -/
def finalizeChain (s : Sha384) : List Nat :=
  if s.leftover < 112 then
    compress s.working_state (s.buffer.take s.leftover ++ 0x80 ::
      (List.replicate (111 - s.leftover) 0 ++ be16Bytes (mlenVal s)))
  else
    compress (compress s.working_state
        (s.buffer.take s.leftover ++ 0x80 :: List.replicate (127 - s.leftover) 0))
      (List.replicate 112 0 ++ be16Bytes (mlenVal s))

theorem W64_eq : W64 = 18446744073709551616 := by norm_num [W64]

theorem pow128_eq : (2 : Nat) ^ 128 = 340282366920938463463374607431768211456 := by norm_num

/-- Behaviour of `increment_mlen` on in-range counters: it panics exactly
when the 128-bit value would overflow, and otherwise adds `8 * d` to the
counter value, leaving every other field unchanged. -/
theorem increment_mlen_spec (s : Sha384) (d : Nat) (hd : 8 * d < W64)
    (h1 : s.message_len.1 < W64) (h2 : s.message_len.2 < W64) :
    (2 ^ 128 ≤ mlenVal s + 8 * d → s.increment_mlen d = none) ∧
    (mlenVal s + 8 * d < 2 ^ 128 → ∃ mh ml,
      s.increment_mlen d = some { s with message_len := (mh, ml) } ∧
      mh < W64 ∧ ml < W64 ∧ mh * W64 + ml = mlenVal s + 8 * d) := by
  have hW : W64 = 18446744073709551616 := W64_eq
  have h128 : (2 : Nat) ^ 128 = 340282366920938463463374607431768211456 := pow128_eq
  have hlen : d * 8 % W64 = 8 * d := by
    rw [mul_comm]; exact Nat.mod_eq_of_lt hd
  rcases s with ⟨ws, buf, lo, ⟨A, B⟩, fin⟩
  simp only [mlenVal] at h1 h2 ⊢
  constructor
  · intro hover
    unfold Sha384.increment_mlen
    simp only [hlen]
    rw [h128] at hover
    rw [hW] at hover h1 h2 ⊢
    split_ifs with hA hB
    · omega
    · omega
    · rfl
  · intro hlt
    unfold Sha384.increment_mlen
    simp only [hlen]
    rw [h128] at hlt
    rw [hW] at hlt h1 h2
    simp only [hW]
    split_ifs with hA hB
    · exact ⟨A, B + 8 * d, rfl, by omega, by omega, by omega⟩
    · exact ⟨A + 1, (B + 8 * d) % 18446744073709551616, rfl, by omega, by omega,
        by omega⟩
    · omega

theorem chainRest_short (fuel : Nat) (h : List Nat) (m : List Nat)
    (hm : m.length < 128) : chainRest fuel h m = (h, m) := by
  cases fuel with
  | zero => rfl
  | succ n =>
    rw [chainRest]
    rw [if_neg (show ¬ 128 ≤ m.length from by omega)]

theorem chainRest_irrel (f1 : Nat) : ∀ (f2 : Nat) (h : List Nat) (m : List Nat),
    m.length ≤ f1 → m.length ≤ f2 → chainRest f1 h m = chainRest f2 h m := by
  induction f1 with
  | zero =>
    intro f2 h m h1 h2
    rw [chainRest_short f2 h m (by omega)]
    rfl
  | succ n ih =>
    intro f2 h m h1 h2
    by_cases hlen : m.length < 128
    · rw [chainRest_short _ _ _ hlen, chainRest_short _ _ _ hlen]
    · push_neg at hlen
      obtain ⟨f2', rfl⟩ : ∃ k, f2 = k + 1 := ⟨f2 - 1, by omega⟩
      rw [chainRest, chainRest]
      rw [if_pos hlen, if_pos hlen]
      exact ih f2' _ _ (by simp; omega) (by simp; omega)

theorem chainRest_eq_absorbSpec (fuel : Nat) (h : List Nat) (m : List Nat)
    (hf : m.length ≤ fuel) : chainRest fuel h m = absorbSpec h m :=
  chainRest_irrel fuel m.length h m hf le_rfl

theorem absorbSpec_short (h : List Nat) (m : List Nat) (hm : m.length < 128) :
    absorbSpec h m = (h, m) :=
  chainRest_short _ _ _ hm

theorem absorbSpec_block (h : List Nat) (b m : List Nat) (hb : b.length = 128) :
    absorbSpec h (b ++ m) = absorbSpec (compress h b) m := by
  unfold absorbSpec
  have hlen : (b ++ m).length = 128 + m.length := by simp [hb]
  rw [hlen, show 128 + m.length = (127 + m.length) + 1 from by omega]
  rw [chainRest]
  rw [if_pos (by simp [hb])]
  rw [List.take_left' hb, List.drop_left' hb]
  exact chainRest_irrel _ _ _ _ (by omega) le_rfl

theorem absorbSpec_split (h : List Nat) (a : List Nat) (ha : 128 ≤ a.length) :
    absorbSpec h a = absorbSpec (compress h (a.take 128)) (a.drop 128) := by
  conv_lhs => rw [← List.take_append_drop 128 a]
  exact absorbSpec_block _ _ _ (by simp; omega)

theorem absorbSpec_append (n : Nat) : ∀ (a b : List Nat) (h : List Nat),
    a.length ≤ n →
    absorbSpec h (a ++ b) = absorbSpec (absorbSpec h a).1 ((absorbSpec h a).2 ++ b) := by
  induction n with
  | zero =>
    intro a b h ha
    have : a = [] := List.length_eq_zero.mp (by omega)
    subst this
    rw [absorbSpec_short h [] (by simp)]
  | succ n ih =>
    intro a b h ha
    by_cases hs : a.length < 128
    · rw [absorbSpec_short h a hs]
    · push_neg at hs
      have htk : (a.take 128).length = 128 := by simp; omega
      calc absorbSpec h (a ++ b)
          = absorbSpec h ((a.take 128 ++ a.drop 128) ++ b) := by
            rw [List.take_append_drop]
        _ = absorbSpec h (a.take 128 ++ (a.drop 128 ++ b)) := by
            rw [List.append_assoc]
        _ = absorbSpec (compress h (a.take 128)) (a.drop 128 ++ b) :=
            absorbSpec_block _ _ _ htk
        _ = absorbSpec (absorbSpec (compress h (a.take 128)) (a.drop 128)).1
              ((absorbSpec (compress h (a.take 128)) (a.drop 128)).2 ++ b) :=
            ih _ _ _ (by simp; omega)
        _ = absorbSpec (absorbSpec h a).1 ((absorbSpec h a).2 ++ b) := by
            rw [← absorbSpec_split h a hs]

theorem absorbSpec_snd_length (n : Nat) : ∀ (h : List Nat) (m : List Nat),
    m.length ≤ n → (absorbSpec h m).2.length = m.length % 128 := by
  induction n with
  | zero =>
    intro h m hm
    have : m = [] := List.length_eq_zero.mp (by omega)
    subst this
    rw [absorbSpec_short h [] (by simp)]
    simp
  | succ n ih =>
    intro h m hm
    by_cases hs : m.length < 128
    · rw [absorbSpec_short h m hs]
      simp [Nat.mod_eq_of_lt hs]
    · push_neg at hs
      rw [absorbSpec_split h m hs]
      rw [ih _ _ (by simp; omega)]
      simp
      omega

theorem INV_new : INV Sha384.new [] := by
  constructor <;> simp [Sha384.new, absorbSpec, chainRest, mlenVal, W64]

theorem INV.mlen_lt {s : Sha384} {m : List Nat} (hinv : INV s m) :
    8 * m.length < 2 ^ 128 := by
  have h1 := hinv.m1
  have h2 := hinv.m2
  have hv := hinv.mval
  rw [mlenVal] at hv
  rw [W64_eq] at h1 h2 hv
  rw [pow128_eq]
  omega

theorem setRange_length (l v : List Nat) (s : Nat) (hsv : s + v.length ≤ l.length) :
    (setRange l s v).length = l.length := by
  simp [setRange]
  omega

theorem setRange_zero (l v : List Nat) : setRange l 0 v = v ++ l.drop v.length := by
  simp [setRange]

/-- `stashTail` preserves the abstraction relation, absorbing the stashed
bytes into the stream; it panics exactly when the bit counter would
overflow. -/
theorem stashTail_inv (s : Sha384) (m bytes : List Nat) (hinv : INV s m)
    (hlo : s.leftover = 0) (hb : bytes.length < 128) :
    (8 * (m.length + bytes.length) < 2 ^ 128 →
      ∃ s', s.stashTail bytes = some s' ∧ INV s' (m ++ bytes)) ∧
    (2 ^ 128 ≤ 8 * (m.length + bytes.length) → s.stashTail bytes = none) := by
  have hmlt := hinv.mlen_lt
  have hmod : m.length % 128 = 0 := by
    have := hinv.lo
    omega
  have hsnd : (absorbSpec H0 m).2 = [] := by
    have := hinv.tl
    rw [hlo] at this
    simpa using this.symm
  by_cases hempty : bytes.isEmpty
  · rw [List.isEmpty_iff] at hempty
    subst hempty
    constructor
    · intro _
      exact ⟨s, by rw [Sha384.stashTail]; simp, by simpa using hinv⟩
    · intro hover
      simp at hover
      omega
  · have hbne : bytes ≠ [] := by
      intro hc
      subst hc
      exact hempty rfl
    have hblen : bytes.length ≤ 127 := by omega
    set s1 : Sha384 :=
      { s with buffer := setRange s.buffer 0 bytes, leftover := bytes.length } with hs1
    have hml1 : s1.message_len = s.message_len := rfl
    have hspec := increment_mlen_spec s1 bytes.length
      (by rw [W64_eq]; omega) (by rw [hml1]; exact hinv.m1) (by rw [hml1]; exact hinv.m2)
    have hval1 : mlenVal s1 = 8 * m.length := by
      rw [mlenVal, hml1, ← mlenVal, hinv.mval]
    have hstash : s.stashTail bytes = s1.increment_mlen bytes.length := by
      rw [Sha384.stashTail, if_neg (by simpa using hbne)]
    constructor
    · intro hlt
      obtain ⟨mh, ml, heq, hmh, hml, hval⟩ := hspec.2 (by rw [hval1]; omega)
      refine ⟨_, by rw [hstash, heq], ?_⟩
      have habs : absorbSpec H0 (m ++ bytes) = ((absorbSpec H0 m).1, bytes) := by
        rw [absorbSpec_append m.length m bytes H0 le_rfl, hsnd]
        simpa using absorbSpec_short _ bytes hb
      constructor
      · show s.working_state = _
        rw [habs]
        exact hinv.ws
      · show (setRange s.buffer 0 bytes).take bytes.length = _
        rw [habs, setRange_zero]
        exact List.take_left _ _
      · show bytes.length = (m ++ bytes).length % 128
        rw [List.length_append]
        omega
      · show (setRange s.buffer 0 bytes).length = 128
        rw [setRange_length _ _ _ (by rw [hinv.buflen]; omega)]
        exact hinv.buflen
      · exact hmh
      · exact hml
      · show mh * W64 + ml = 8 * (m ++ bytes).length
        rw [hval, hval1]
        simp
        ring
      · exact hinv.fin
    · intro hover
      obtain hnone := hspec.1 (by rw [hval1]; omega)
      rw [hstash, hnone]

theorem absorbSpec_exact (h : List Nat) (b : List Nat) (hb : b.length = 128) :
    absorbSpec h b = (compress h b, []) := by
  conv_lhs => rw [show b = b ++ [] from (List.append_nil b).symm]
  rw [absorbSpec_block _ _ _ hb]
  exact absorbSpec_short _ [] (by simp)

/-- The block phase of `update` preserves the abstraction relation and
panics exactly when the bit counter would overflow. -/
theorem updateBlocks_inv (fuel : Nat) : ∀ (s : Sha384) (m bytes : List Nat),
    INV s m → s.leftover = 0 → bytes.length ≤ fuel →
    (8 * (m.length + bytes.length) < 2 ^ 128 →
      ∃ s', Sha384.updateBlocks fuel s bytes = some s' ∧ INV s' (m ++ bytes)) ∧
    (2 ^ 128 ≤ 8 * (m.length + bytes.length) →
      Sha384.updateBlocks fuel s bytes = none) := by
  induction fuel with
  | zero =>
    intro s m bytes hinv hlo hf
    exact stashTail_inv s m bytes hinv hlo (by omega)
  | succ n ih =>
    intro s m bytes hinv hlo hf
    by_cases hblk : 128 ≤ bytes.length
    · have hmod : m.length % 128 = 0 := by
        have := hinv.lo
        omega
      have hsnd : (absorbSpec H0 m).2 = [] := by
        have := hinv.tl
        rw [hlo] at this
        simpa using this.symm
      set sp : Sha384 := s.process (some (bytes.take 128)) with hsp
      have hml : sp.message_len = s.message_len := rfl
      have hspec := increment_mlen_spec sp 128 (by rw [W64_eq]; omega)
        (by rw [hml]; exact hinv.m1) (by rw [hml]; exact hinv.m2)
      have hvalp : mlenVal sp = 8 * m.length := by
        rw [mlenVal, hml, ← mlenVal, hinv.mval]
      have hub : Sha384.updateBlocks (n + 1) s bytes =
          match sp.increment_mlen 128 with
          | none => none
          | some s2 => Sha384.updateBlocks n s2 (bytes.drop 128) := by
        rw [Sha384.updateBlocks, if_pos hblk]
      have htk : (bytes.take 128).length = 128 := by
        simp
        omega
      have hjoin : (m ++ bytes.take 128) ++ bytes.drop 128 = m ++ bytes := by
        rw [List.append_assoc, List.take_append_drop]
      by_cases hstep : 8 * (m.length + 128) < 2 ^ 128
      · obtain ⟨mh, ml, heq, hmh, hml2, hval⟩ := hspec.2 (by rw [hvalp]; omega)
        set s2 : Sha384 := { sp with message_len := (mh, ml) } with hs2
        have habs : absorbSpec H0 (m ++ bytes.take 128) =
            (compress (absorbSpec H0 m).1 (bytes.take 128), []) := by
          rw [absorbSpec_append m.length m _ H0 le_rfl, hsnd]
          simp only [List.nil_append]
          exact absorbSpec_exact _ _ htk
        have hinv2 : INV s2 (m ++ bytes.take 128) := by
          constructor
          · show compress s.working_state (bytes.take 128) = _
            rw [habs, hinv.ws]
          · show s.buffer.take s.leftover = _
            rw [habs, hlo]
            simp
          · show s.leftover = _
            rw [hlo, List.length_append, htk]
            omega
          · exact hinv.buflen
          · exact hmh
          · exact hml2
          · show mh * W64 + ml = _
            rw [hval, hvalp, List.length_append, htk]
            ring
          · exact hinv.fin
        have hih := ih s2 (m ++ bytes.take 128) (bytes.drop 128) hinv2 (by rw [hs2]; exact hlo)
          (by simp; omega)
        constructor
        · intro hlt
          obtain ⟨s', hrun, hinv'⟩ := hih.1 (by
            rw [List.length_append, htk]
            simp
            omega)
          rw [hjoin] at hinv'
          refine ⟨s', ?_, hinv'⟩
          rw [hub, heq]
          exact hrun
        · intro hover
          rw [hub, heq]
          apply hih.2
          rw [List.length_append, htk]
          simp
          omega
      · have hnone := hspec.1 (by rw [hvalp]; omega)
        constructor
        · intro hlt
          omega
        · intro hover
          rw [hub, hnone]
    · have heq : Sha384.updateBlocks (n + 1) s bytes = s.stashTail bytes := by
        rw [Sha384.updateBlocks, if_neg hblk]
      rw [heq]
      exact stashTail_inv s m bytes hinv hlo (by omega)

theorem setRange_take (l v : List Nat) (s : Nat) (hs : s ≤ l.length) :
    (setRange l s v).take (s + v.length) = l.take s ++ v := by
  rw [setRange, List.append_assoc]
  rw [show s + v.length = (l.take s).length + v.length from by
    rw [List.length_take]
    omega]
  rw [List.take_append, List.take_left]

/-- The update operation preserves the abstraction relation: from a state
that has absorbed `m`, `update data` succeeds with a state that abstracts
`m ++ data`, unless the bit counter would overflow, in which case it
panics. -/
theorem update_inv (s : Sha384) (m data : List Nat) (hinv : INV s m) :
    (8 * (m.length + data.length) < 2 ^ 128 →
      ∃ s', s.update data = some (.ok s') ∧ INV s' (m ++ data)) ∧
    (2 ^ 128 ≤ 8 * (m.length + data.length) → s.update data = none) := by
  have hmlt := hinv.mlen_lt
  have hfin := hinv.fin
  have hl' := hinv.lo
  by_cases hempty : data.isEmpty
  · rw [List.isEmpty_iff] at hempty
    subst hempty
    constructor
    · intro _
      refine ⟨s, ?_, by simpa using hinv⟩
      rw [Sha384.update]
      simp [hfin]
    · intro hover
      simp only [List.length_nil] at hover
      omega
  · by_cases hl0 : s.leftover = 0
    · have hupd : s.update data = (s.updateBlocks data.length data).map Except.ok := by
        rw [Sha384.update, if_neg (by rw [hfin]; simp), if_neg hempty, if_neg (by omega)]
      have hblocks := updateBlocks_inv data.length s m data hinv hl0 le_rfl
      constructor
      · intro hlt
        obtain ⟨s', hrun, hinv'⟩ := hblocks.1 hlt
        refine ⟨s', ?_, hinv'⟩
        rw [hupd, hrun]
        rfl
      · intro hover
        rw [hupd, hblocks.2 hover]
        rfl
    · have hllt : s.leftover < 128 := by omega
      set want := min (128 - s.leftover) data.length with hwant
      have hwle : want ≤ data.length := min_le_right _ _
      have hwmax : s.leftover + want ≤ 128 := by omega
      have hdne : data.length ≠ 0 := by
        intro hc
        exact hempty (by simp [List.isEmpty_iff, List.length_eq_zero.mp hc])
      have hwpos : 0 < want := by omega
      set s1 : Sha384 := { s with
          buffer := setRange s.buffer s.leftover (data.take want)
          leftover := s.leftover + want } with hs1
      have hml1 : s1.message_len = s.message_len := rfl
      have hspec := increment_mlen_spec s1 want (by rw [W64_eq]; omega)
        (by rw [hml1]; exact hinv.m1) (by rw [hml1]; exact hinv.m2)
      have hval1 : mlenVal s1 = 8 * m.length := by
        rw [mlenVal, hml1, ← mlenVal, hinv.mval]
      have htkw : (data.take want).length = want := by
        simp
        omega
      have htail_len : (absorbSpec H0 m).2.length = s.leftover := by
        rw [absorbSpec_snd_length m.length H0 m le_rfl, ← hl']
      have hupd : s.update data =
          match s1.increment_mlen want with
          | none => none
          | some s2 =>
            if s2.leftover < 128 then some (.ok s2)
            else (({ s2.process none with leftover := 0 } : Sha384).updateBlocks
                (data.drop want).length (data.drop want)).map .ok := by
        rw [Sha384.update, if_neg (by rw [hfin]; simp), if_neg hempty, if_pos hl0]
      by_cases hstep : 8 * (m.length + want) < 2 ^ 128
      · obtain ⟨mh, ml, heq, hmh, hml2, hval⟩ := hspec.2 (by rw [hval1]; omega)
        set s2 : Sha384 := { s1 with message_len := (mh, ml) } with hs2
        have hupd2 : s.update data =
            if s2.leftover < 128 then some (.ok s2)
            else (({ s2.process none with leftover := 0 } : Sha384).updateBlocks
                (data.drop want).length (data.drop want)).map .ok := by
          rw [hupd, heq]
        have hs2lo : s2.leftover = s.leftover + want := rfl
        have hs2val : mh * W64 + ml = 8 * (m.length + want) := by
          rw [hval, hval1]
          ring
        by_cases hfull : s.leftover + want < 128
        · have hwdata : want = data.length := by omega
          have hrun : s.update data = some (.ok s2) := by
            rw [hupd2, if_pos (by omega)]
          have habs : absorbSpec H0 (m ++ data) =
              ((absorbSpec H0 m).1, (absorbSpec H0 m).2 ++ data) := by
            rw [absorbSpec_append m.length m data H0 le_rfl]
            rw [absorbSpec_short _ _ (by rw [List.length_append, htail_len]; omega)]
          have habs1 : (absorbSpec H0 (m ++ data)).1 = (absorbSpec H0 m).1 := by
            rw [habs]
          have habs2 : (absorbSpec H0 (m ++ data)).2 = (absorbSpec H0 m).2 ++ data := by
            rw [habs]
          constructor
          · intro hlt
            refine ⟨s2, hrun, ?_⟩
            constructor
            · rw [habs1]
              exact hinv.ws
            · show (setRange s.buffer s.leftover (data.take want)).take (s.leftover + want) = _
              rw [habs2]
              rw [show s.leftover + want = s.leftover + (data.take want).length from by
                rw [htkw]]
              rw [setRange_take _ _ _ (by rw [hinv.buflen]; omega)]
              have hdtake : data.take want = data := by
                rw [hwdata]
                exact List.take_length data
              rw [hinv.tl, hdtake]
            · show s.leftover + want = (m ++ data).length % 128
              rw [List.length_append]
              omega
            · show (setRange s.buffer s.leftover (data.take want)).length = 128
              rw [setRange_length _ _ _ (by rw [hinv.buflen, htkw]; omega), hinv.buflen]
            · exact hmh
            · exact hml2
            · show mh * W64 + ml = 8 * (m ++ data).length
              rw [hs2val, List.length_append, hwdata]
            · exact hinv.fin
          · intro hover
            exact absurd hover (by omega)
        · have hwfull : s.leftover + want = 128 := by omega
          have hnotlt : ¬ s2.leftover < 128 := by omega
          set s3 : Sha384 := { s2.process none with leftover := 0 } with hs3
          have hbuf2 : setRange s.buffer s.leftover (data.take want) =
              (absorbSpec H0 m).2 ++ data.take want := by
            rw [setRange, List.drop_eq_nil_of_le (by rw [hinv.buflen]; rw [htkw]; omega)]
            rw [hinv.tl]
            simp
          have habs : absorbSpec H0 (m ++ data.take want) =
              (compress (absorbSpec H0 m).1 ((absorbSpec H0 m).2 ++ data.take want), []) := by
            rw [absorbSpec_append m.length m _ H0 le_rfl]
            exact absorbSpec_exact _ _ (by rw [List.length_append, htail_len, htkw]; omega)
          have habs1 : (absorbSpec H0 (m ++ data.take want)).1 =
              compress (absorbSpec H0 m).1 ((absorbSpec H0 m).2 ++ data.take want) := by
            rw [habs]
          have habs2 : (absorbSpec H0 (m ++ data.take want)).2 = ([] : List Nat) := by
            rw [habs]
          have hinv3 : INV s3 (m ++ data.take want) := by
            constructor
            · show compress s.working_state (setRange s.buffer s.leftover (data.take want)) = _
              rw [habs1, hbuf2, hinv.ws]
            · show ((s3 : Sha384).buffer).take 0 = _
              rw [habs2]
              simp
            · show 0 = (m ++ data.take want).length % 128
              rw [List.length_append, htkw]
              omega
            · show (setRange s.buffer s.leftover (data.take want)).length = 128
              rw [setRange_length _ _ _ (by rw [hinv.buflen, htkw]; omega), hinv.buflen]
            · exact hmh
            · exact hml2
            · show mh * W64 + ml = 8 * (m ++ data.take want).length
              rw [hs2val, List.length_append, htkw]
            · exact hinv.fin
          have hjoin2 : (m ++ data.take want) ++ data.drop want = m ++ data := by
            rw [List.append_assoc, List.take_append_drop]
          have hlen3 : (m ++ data.take want).length + (data.drop want).length =
              m.length + data.length := by
            rw [List.length_append, htkw, List.length_drop]
            omega
          have hblocks := updateBlocks_inv (data.drop want).length s3
            (m ++ data.take want) (data.drop want) hinv3 rfl le_rfl
          constructor
          · intro hlt
            obtain ⟨s', hrun, hinv'⟩ := hblocks.1 (by rw [hlen3]; omega)
            rw [hjoin2] at hinv'
            refine ⟨s', ?_, hinv'⟩
            rw [hupd2, if_neg hnotlt, hrun]
            rfl
          · intro hover
            rw [hupd2, if_neg hnotlt, hblocks.2 (by rw [hlen3]; omega)]
            rfl
      · have hnone := hspec.1 (by rw [hval1]; omega)
        constructor
        · intro hlt
          omega
        · intro hover
          rw [hupd, hnone]

/-- Feeding a partition chunk by chunk preserves the abstraction relation
on the concatenation, with the same overflow-panic threshold. -/
theorem updateAll_inv (chunks : List (List Nat)) : ∀ (s : Sha384) (m : List Nat),
    INV s m →
    (8 * (m.length + chunks.flatten.length) < 2 ^ 128 →
      ∃ s', s.updateAll chunks = some (.ok s') ∧ INV s' (m ++ chunks.flatten)) ∧
    (2 ^ 128 ≤ 8 * (m.length + chunks.flatten.length) →
      s.updateAll chunks = none) := by
  induction chunks with
  | nil =>
    intro s m hinv
    constructor
    · intro _
      exact ⟨s, rfl, by simpa using hinv⟩
    · intro hover
      exact absurd hover (by have := hinv.mlen_lt; simp; omega)
  | cons c cs ih =>
    intro s m hinv
    have hjl : ((c :: cs).flatten).length = c.length + cs.flatten.length := by
      simp
    have hu := update_inv s m c hinv
    by_cases hc : 8 * (m.length + c.length) < 2 ^ 128
    · obtain ⟨s', hrun, hinv'⟩ := hu.1 hc
      have hrec := ih s' (m ++ c) hinv'
      have hua : s.updateAll (c :: cs) = s'.updateAll cs := by
        rw [Sha384.updateAll, hrun]
      constructor
      · intro hlt
        obtain ⟨s'', hrun2, hinv''⟩ := hrec.1 (by
          rw [List.length_append]
          omega)
        rw [List.append_assoc] at hinv''
        refine ⟨s'', ?_, by simpa using hinv''⟩
        rw [hua]
        exact hrun2
      · intro hover
        rw [hua]
        exact hrec.2 (by rw [List.length_append]; omega)
    · have hnone := hu.2 (by omega)
      have hna : s.updateAll (c :: cs) = none := by
        rw [Sha384.updateAll, hnone]
      constructor
      · intro hlt
        exact absurd hlt (by omega)
      · intro _
        exact hna

theorem set_take_succ (buf : List Nat) (l : Nat) (x : Nat) (hl : l < buf.length) :
    (buf.set l x).take (l + 1) = buf.take l ++ [x] := by
  rw [List.set_eq_take_append_cons_drop, if_pos hl]
  rw [show l + 1 = (buf.take l).length + 1 from by rw [List.length_take]; omega]
  rw [List.take_append]
  simp

theorem be16_eq_two_words (A B : Nat) (hA : A < W64) (hB : B < W64) :
    be16Bytes (A * W64 + B) = wordBytesBE A ++ wordBytesBE B := by
  rw [W64_eq] at hA hB ⊢
  simp only [be16Bytes, wordBytesBE, List.cons_append, List.nil_append, List.cons.injEq,
    and_true]
  refine ⟨?_, ?_, ?_, ?_, ?_, ?_, ?_, ?_, ?_, ?_, ?_, ?_, ?_, ?_, ?_, ?_⟩ <;> omega

/-- Functional characterization of `_finalize_internal` on a
non-finalized, well-formed state: it succeeds, emits the first six words of
`finalizeChain` as 48 big-endian bytes, marks the state finalized, bumps
`leftover` by the appended `0x80` byte and leaves the counter unchanged. -/
theorem finalize_spec (s : Sha384) (dst : List Nat)
    (hfin : s.is_finalized = false) (hlo : s.leftover < 128)
    (hbuf : s.buffer.length = 128)
    (h1 : s.message_len.1 < W64) (h2 : s.message_len.2 < W64) :
    (s._finalize_internal dst).2.2 = .ok () ∧
    (s._finalize_internal dst).2.1 = storeWordsBE ((finalizeChain s).take 6) ∧
    (s._finalize_internal dst).1.working_state = finalizeChain s ∧
    (s._finalize_internal dst).1.is_finalized = true ∧
    (s._finalize_internal dst).1.leftover = s.leftover + 1 ∧
    (s._finalize_internal dst).1.message_len = s.message_len := by
  have hne : ¬ s.is_finalized = true := by
    rw [hfin]
    simp
  have hlen16 : (wordBytesBE s.message_len.1 ++ wordBytesBE s.message_len.2).length = 16 := by
    simp [wordBytesBE]
  have hbe : be16Bytes (mlenVal s) =
      wordBytesBE s.message_len.1 ++ wordBytesBE s.message_len.2 := by
    rw [mlenVal]
    exact be16_eq_two_words _ _ h1 h2
  have hP1 : (s.buffer.set s.leftover 0x80).take (s.leftover + 1) ++
      List.replicate (128 - (s.leftover + 1)) 0 =
      s.buffer.take s.leftover ++ 0x80 :: List.replicate (127 - s.leftover) 0 := by
    rw [set_take_succ s.buffer s.leftover 0x80 (by omega)]
    rw [show 128 - (s.leftover + 1) = 127 - s.leftover from by omega]
    rw [List.append_assoc]
    rfl
  have hP1len : (s.buffer.take s.leftover ++ 0x80 ::
      List.replicate (127 - s.leftover) 0).length = 128 := by
    simp
    omega
  by_cases hbr : s.leftover < 112
  · have hcond : ¬ (128 - (s.leftover + 1) < 16) := by omega
    have hchain : finalizeChain s =
        compress s.working_state (s.buffer.take s.leftover ++ 0x80 ::
          (List.replicate (111 - s.leftover) 0 ++
            (wordBytesBE s.message_len.1 ++ wordBytesBE s.message_len.2))) := by
      rw [finalizeChain, if_pos hbr, hbe]
    have hbuf5 : setRange (s.buffer.take s.leftover ++ 0x80 ::
          List.replicate (127 - s.leftover) 0) 112
          (wordBytesBE s.message_len.1 ++ wordBytesBE s.message_len.2) =
        s.buffer.take s.leftover ++ 0x80 ::
          (List.replicate (111 - s.leftover) 0 ++
            (wordBytesBE s.message_len.1 ++ wordBytesBE s.message_len.2)) := by
      rw [setRange, hlen16]
      rw [List.drop_eq_nil_of_le (by rw [hP1len])]
      have htake : (s.buffer.take s.leftover ++ 0x80 ::
          List.replicate (127 - s.leftover) 0).take 112 =
          s.buffer.take s.leftover ++ 0x80 :: List.replicate (111 - s.leftover) 0 := by
        rw [show (112 : Nat) = (s.buffer.take s.leftover).length + (112 - s.leftover) from by
          rw [List.length_take]
          omega]
        rw [List.take_append]
        rw [show 112 - s.leftover = (111 - s.leftover) + 1 from by omega]
        rw [List.take_cons (by omega)]
        rw [List.take_replicate]
        rw [show (111 - s.leftover + 1 - 1) ⊓ (127 - s.leftover) = 111 - s.leftover from by
          omega]
      rw [htake, List.append_nil, List.append_assoc]
      rfl
    simp only [Sha384._finalize_internal, if_neg hne, hP1, if_neg hcond, hbuf5, hchain]
    refine ⟨?_, ?_, ?_, ?_, ?_, ?_⟩ <;> first | rfl | trivial
  · have hcond : 128 - (s.leftover + 1) < 16 := by omega
    have hchain : finalizeChain s =
        compress (compress s.working_state (s.buffer.take s.leftover ++ 0x80 ::
            List.replicate (127 - s.leftover) 0))
          (List.replicate 112 0 ++
            (wordBytesBE s.message_len.1 ++ wordBytesBE s.message_len.2)) := by
      rw [finalizeChain, if_neg hbr, hbe]
    have hdrop : (s.buffer.take s.leftover ++ 0x80 ::
        List.replicate (127 - s.leftover) 0).drop (s.leftover + 1) =
        List.replicate (127 - s.leftover) 0 := by
      rw [show s.leftover + 1 = (s.buffer.take s.leftover ++ [0x80]).length from by
        simp
        omega]
      rw [show s.buffer.take s.leftover ++ 0x80 :: List.replicate (127 - s.leftover) 0 =
          (s.buffer.take s.leftover ++ [0x80]) ++ List.replicate (127 - s.leftover) 0 from by
        rw [List.append_assoc]
        rfl]
      exact List.drop_left _ _
    have hzero : List.replicate (min (s.leftover + 1) 128) 0 ++
        List.replicate (127 - s.leftover) 0 = List.replicate 128 (0 : Nat) := by
      rw [show min (s.leftover + 1) 128 = s.leftover + 1 from by omega]
      rw [← List.replicate_add]
      rw [show s.leftover + 1 + (127 - s.leftover) = 128 from by omega]
    have hbuf5 : setRange (List.replicate 128 (0 : Nat)) 112
        (wordBytesBE s.message_len.1 ++ wordBytesBE s.message_len.2) =
        List.replicate 112 0 ++
          (wordBytesBE s.message_len.1 ++ wordBytesBE s.message_len.2) := by
      rw [setRange, hlen16, List.take_replicate, List.drop_replicate]
      simp
    simp only [Sha384._finalize_internal, if_neg hne, hP1, if_pos hcond, Sha384.process,
      hdrop, hzero, hbuf5, hchain]
    refine ⟨?_, ?_, ?_, ?_, ?_, ?_⟩ <;> first | rfl | trivial

theorem update_finalized (s : Sha384) (data : List Nat) (h : s.is_finalized = true) :
    s.update data = some (.error .mk) := by
  rw [Sha384.update, if_pos h]

theorem finalize_finalized (s : Sha384) (dst : List Nat) (h : s.is_finalized = true) :
    s._finalize_internal dst = (s, dst, .error .mk) := by
  rw [Sha384._finalize_internal, if_pos h]

theorem finalize_sets_flag (s : Sha384) (dst : List Nat) (h : s.is_finalized = false) :
    (s._finalize_internal dst).1.is_finalized = true := by
  have hne : ¬ s.is_finalized = true := by
    rw [h]
    simp
  simp only [Sha384._finalize_internal, if_neg hne]
  split <;> rfl

theorem finalize_digest_of_INV (s : Sha384) (m : List Nat) (hinv : INV s m) :
    s.finalize.2 = .ok (storeWordsBE ((finalizeChain s).take 6)) := by
  have hfs := finalize_spec s (List.replicate 48 0) hinv.fin
    (by have := hinv.lo; omega) hinv.buflen hinv.m1 hinv.m2
  rw [Sha384.finalize]
  rw [hfs.1, hfs.2.1]
  rfl

theorem finalizeChain_of_INV (s t : Sha384) (m : List Nat)
    (hs : INV s m) (ht : INV t m) : finalizeChain s = finalizeChain t := by
  rw [finalizeChain, finalizeChain, hs.tl, ht.tl, hs.ws, ht.ws, hs.mval, ht.mval,
    hs.lo, ht.lo]

/-- Claim C1: for every byte sequence and every partition of it into
chunks, the one-shot `Sha384.digest` agrees with `new`, `update` on each
chunk in order, and `finalize`.  The length bound reflects that a byte
sequence held in memory keeps the 128-bit bit counter below overflow. -/
theorem sha384_oneshot_eq_streaming (chunks : List (List Nat))
    (hlen : 8 * chunks.flatten.length < 2 ^ 128) :
    Sha384.digest chunks.flatten = streamingDigest chunks := by
  obtain ⟨s1, hrun1, hinv1⟩ :=
    (update_inv Sha384.new [] chunks.flatten INV_new).1 (by simpa using hlen)
  obtain ⟨s2, hrun2, hinv2⟩ :=
    (updateAll_inv chunks Sha384.new [] INV_new).1 (by simpa using hlen)
  rw [List.nil_append] at hinv1 hinv2
  simp only [Sha384.digest, streamingDigest, hrun1, hrun2]
  rw [finalize_digest_of_INV s1 _ hinv1, finalize_digest_of_INV s2 _ hinv2]
  rw [finalizeChain_of_INV s1 s2 _ hinv1 hinv2]

/-- Witness for C1 at the partition `[[97], [98, 99]]` of `"abc"`. -/
theorem sha384_oneshot_eq_streaming_witness :
    8 * (List.flatten [[97], [98, 99]]).length < 2 ^ 128 ∧
    Sha384.digest (List.flatten [[97], [98, 99]]) = streamingDigest [[97], [98, 99]] :=
  ⟨by norm_num, sha384_oneshot_eq_streaming [[97], [98, 99]] (by norm_num)⟩

/-- Claim C8: after `reset`, every field of the state equals the
corresponding field of a freshly constructed `Sha384.new` state. -/
theorem sha384_reset_eq_new (s : Sha384) :
    (Sha384.reset s).working_state = Sha384.new.working_state ∧
    (Sha384.reset s).buffer = Sha384.new.buffer ∧
    (Sha384.reset s).leftover = Sha384.new.leftover ∧
    (Sha384.reset s).message_len = Sha384.new.message_len ∧
    (Sha384.reset s).is_finalized = Sha384.new.is_finalized :=
  ⟨rfl, rfl, rfl, rfl, rfl⟩

/-- Claim C10: calling `_finalize_internal` on an already-finalized state
returns the error and leaves the state and the digest destination exactly
as they were. -/
theorem sha384_finalize_error_no_mutation (s : Sha384) (dst : List Nat)
    (h : s.is_finalized = true) :
    s._finalize_internal dst = (s, dst, .error .mk) := by
  rw [Sha384._finalize_internal, if_pos h]

/-- Witness for C10 on a concrete finalized state. -/
theorem sha384_finalize_error_no_mutation_witness :
    ({ Sha384.new with is_finalized := true } : Sha384)._finalize_internal [7] =
      ({ Sha384.new with is_finalized := true }, [7], .error .mk) :=
  sha384_finalize_error_no_mutation _ _ rfl

/-- Claim C6: a successful finalize appends `0x80` after the buffered
tail, zero-pads so that exactly 16 bytes remain for the length field —
compressing the current block and padding a fresh one when fewer than 16
bytes remain — writes the 128-bit big-endian bit count into the final 16
bytes, compresses, and emits the first 6 chaining words as 48 big-endian
bytes; `finalizeChain` spells out that padding discipline. -/
theorem sha384_finalize_padding (s : Sha384) (dst : List Nat)
    (hfin : s.is_finalized = false) (hlo : s.leftover < 128)
    (hbuf : s.buffer.length = 128)
    (h1 : s.message_len.1 < W64) (h2 : s.message_len.2 < W64) :
    (s._finalize_internal dst).2.2 = .ok () ∧
    (s._finalize_internal dst).2.1 = storeWordsBE ((finalizeChain s).take 6) :=
  ⟨(finalize_spec s dst hfin hlo hbuf h1 h2).1,
   (finalize_spec s dst hfin hlo hbuf h1 h2).2.1⟩

/-- Witness for C6 on the fresh state. -/
theorem sha384_finalize_padding_witness :
    (Sha384.new._finalize_internal []).2.2 = .ok () ∧
    (Sha384.new._finalize_internal []).2.1 =
      storeWordsBE ((finalizeChain Sha384.new).take 6) :=
  sha384_finalize_padding Sha384.new [] rfl (by decide) (by simp [Sha384.new])
    (by norm_num [Sha384.new, W64]) (by norm_num [Sha384.new, W64])

/-- Claim C4: once `finalize` has succeeded on a state, any `update` and
any second finalize return the crypto error, and after `reset` the same
state accepts input again (for any input a Rust slice could hold). -/
theorem sha384_terminal_flag (s s' : Sha384) (dst dig : List Nat)
    (hsucc : s._finalize_internal dst = (s', dig, .ok ())) :
    (∀ data : List Nat, s'.update data = some (.error .mk)) ∧
    (∀ dst2 : List Nat, s'._finalize_internal dst2 = (s', dst2, .error .mk)) ∧
    (∀ data : List Nat, 8 * data.length < 2 ^ 128 →
      ∃ s'', (Sha384.reset s').update data = some (.ok s'')) := by
  have hsf : s.is_finalized = false := by
    cases hb : s.is_finalized
    · rfl
    · rw [finalize_finalized s dst hb] at hsucc
      have := congrArg (fun t => t.2.2) hsucc
      simp at this
  have hflag : s'.is_finalized = true := by
    have h1 := congrArg (fun t => t.1) hsucc
    simp only at h1
    rw [← h1]
    exact finalize_sets_flag s dst hsf
  refine ⟨fun data => update_finalized s' data hflag,
    fun dst2 => finalize_finalized s' dst2 hflag, ?_⟩
  intro data hlen
  have hreset : Sha384.reset s' = Sha384.new := rfl
  rw [hreset]
  obtain ⟨s'', hrun, _⟩ := (update_inv Sha384.new [] data INV_new).1 (by simpa using hlen)
  exact ⟨s'', hrun⟩

/-- Witness for C4: finalize the fresh state, then check rejection and
reset-recovery on concrete inputs. -/
theorem sha384_terminal_flag_witness :
    ∃ (s' : Sha384) (dig : List Nat),
      Sha384.new._finalize_internal (List.replicate 48 0) = (s', dig, .ok ()) ∧
      s'.update [1, 2] = some (.error .mk) ∧
      s'._finalize_internal [9] = (s', [9], .error .mk) ∧
      ∃ s'', (Sha384.reset s').update [1, 2] = some (.ok s'') := by
  have hok : (Sha384.new._finalize_internal (List.replicate 48 0)).2.2 = Except.ok () := by
    decide
  have htrip : Sha384.new._finalize_internal (List.replicate 48 0) =
      ((Sha384.new._finalize_internal (List.replicate 48 0)).1,
       (Sha384.new._finalize_internal (List.replicate 48 0)).2.1, Except.ok ()) := by
    rw [← hok]
  obtain ⟨hu, hf, hr⟩ := sha384_terminal_flag _ _ _ _ htrip
  exact ⟨_, _, htrip, hu [1, 2], hf [9], hr [1, 2] (by norm_num)⟩

/-- Claim C5: absorbing exactly N bytes from a fresh state leaves the
two-word counter, read as a 128-bit big-endian value, equal to 8·N; when
the high word would overflow the operation panics (embedded as `none`),
never returning a recoverable error; the final conjunct is the seeded
near-overflow panic from the code's own test. -/
theorem sha384_message_len_counter :
    (∀ (chunks : List (List Nat)) (s' : Sha384),
      Sha384.new.updateAll chunks = some (.ok s') →
      mlenVal s' = 8 * chunks.flatten.length) ∧
    (∀ chunks : List (List Nat),
      Sha384.new.updateAll chunks = none ↔ 2 ^ 128 ≤ 8 * chunks.flatten.length) ∧
    (∀ (chunks : List (List Nat)) (e : UnknownCryptoError),
      Sha384.new.updateAll chunks ≠ some (.error e)) ∧
    Sha384.increment_mlen { Sha384.new with message_len := (W64 - 1, W64 - 8) } 1 = none := by
  have key : ∀ chunks : List (List Nat),
      (8 * chunks.flatten.length < 2 ^ 128 →
        ∃ s', Sha384.new.updateAll chunks = some (.ok s') ∧ INV s' chunks.flatten) ∧
      (2 ^ 128 ≤ 8 * chunks.flatten.length → Sha384.new.updateAll chunks = none) := by
    intro chunks
    have h := updateAll_inv chunks Sha384.new [] INV_new
    constructor
    · intro hlt
      obtain ⟨s', h1, h2⟩ := h.1 (by simpa using hlt)
      exact ⟨s', h1, by simpa using h2⟩
    · intro hge
      exact h.2 (by simpa using hge)
  refine ⟨?_, ?_, ?_, by decide⟩
  · intro chunks s' hrun
    by_cases hc : 8 * chunks.flatten.length < 2 ^ 128
    · obtain ⟨s'', h1, h2⟩ := (key chunks).1 hc
      rw [hrun] at h1
      simp only [Option.some.injEq, Except.ok.injEq] at h1
      rw [h1]
      exact h2.mval
    · have hnone := (key chunks).2 (by omega)
      rw [hrun] at hnone
      exact absurd hnone (by simp)
  · intro chunks
    constructor
    · intro hnone
      by_contra hlt
      obtain ⟨s', h1, _⟩ := (key chunks).1 (by omega)
      rw [hnone] at h1
      exact absurd h1 (by simp)
    · exact (key chunks).2
  · intro chunks e hrun
    by_cases hc : 8 * chunks.flatten.length < 2 ^ 128
    · obtain ⟨s', h1, _⟩ := (key chunks).1 hc
      rw [hrun] at h1
      exact absurd h1 (by simp)
    · have hnone := (key chunks).2 (by omega)
      rw [hrun] at hnone
      exact absurd hnone (by simp)

/-- Witness for C5 on the partition `[[5], [6, 7]]` (N = 3, counter 24). -/
theorem sha384_message_len_counter_witness :
    ∃ s' : Sha384, Sha384.new.updateAll [[5], [6, 7]] = some (.ok s') ∧
      mlenVal s' = 8 * (List.flatten [[5], [6, 7]]).length := by
  cases hval : Sha384.new.updateAll [[5], [6, 7]] with
  | none =>
    have h2 := (sha384_message_len_counter.2.1 [[5], [6, 7]]).mp hval
    exact absurd h2 (by decide)
  | some r =>
    cases r with
    | error e => exact absurd hval (sha384_message_len_counter.2.2.1 [[5], [6, 7]] e)
    | ok s' => exact ⟨s', rfl, sha384_message_len_counter.1 [[5], [6, 7]] s' hval⟩

set_option maxRecDepth 40000 in
/-- Counterexample for C9: absorb 127 bytes into a fresh state and
finalize; the code leaves `leftover = 128`, violating
`leftover < blocksize` after finalize. -/
theorem sha384_leftover_cex : leftoverAfter127Finalize = some 128 ∧ ¬ (128 < 128) := by
  constructor
  · decide
  · omega

/-- Claim C9 as amended: `leftover < 128` holds after `new`, after every
successful `update` and after `reset`; after a successful finalize only
`leftover ≤ 128` holds (the bound is attained when the pre-finalize
`leftover` is 127). -/
theorem sha384_leftover_invariant :
    Sha384.new.leftover < 128 ∧
    (∀ s : Sha384, (Sha384.reset s).leftover < 128) ∧
    (∀ (s s' : Sha384) (m data : List Nat), INV s m →
      s.update data = some (.ok s') → s'.leftover < 128) ∧
    (∀ (s : Sha384) (m dst : List Nat), INV s m →
      (s._finalize_internal dst).1.leftover ≤ 128) := by
  refine ⟨by decide, fun s => show (0 : Nat) < 128 by norm_num, ?_, ?_⟩
  · intro s s' m data hinv hrun
    by_cases hc : 8 * (m.length + data.length) < 2 ^ 128
    · obtain ⟨s'', h1, h2⟩ := (update_inv s m data hinv).1 hc
      rw [hrun] at h1
      simp only [Option.some.injEq, Except.ok.injEq] at h1
      rw [h1]
      have := h2.lo
      omega
    · have hnone := (update_inv s m data hinv).2 (by omega)
      rw [hrun] at hnone
      exact absurd hnone (by simp)
  · intro s m dst hinv
    have hstep := (finalize_spec s dst hinv.fin (by have := hinv.lo; omega)
      hinv.buflen hinv.m1 hinv.m2).2.2.2.2.1
    have hlo := hinv.lo
    omega

/-- Witness for C9 (amended) at a fresh state with a 1-byte update. -/
theorem sha384_leftover_invariant_witness :
    ∃ s' : Sha384, Sha384.new.update [3] = some (.ok s') ∧ s'.leftover < 128 ∧
      (Sha384.new._finalize_internal []).1.leftover ≤ 128 := by
  cases hval : Sha384.new.update [3] with
  | none => exact absurd hval (by decide)
  | some r =>
    cases r with
    | error e =>
      cases e
      exact absurd hval (by decide)
    | ok s' =>
      exact ⟨s', rfl,
        sha384_leftover_invariant.2.2.1 Sha384.new s' [] [3] INV_new hval,
        sha384_leftover_invariant.2.2.2 Sha384.new [] [] INV_new⟩

/-- Counterexample for C2: on equal-length unequal inputs `compare_ct`
returns the crypto error, not a boolean. -/
theorem compare_ct_cex :
    compare_ct [0] [1] = .error .mk ∧ ∀ b : Bool, compare_ct [0] [1] ≠ .ok b := by
  constructor
  · decide
  · intro b
    cases b <;> decide

/-- Claim C2 as amended: `compare_ct` returns `Ok(true)` exactly on equal
slices; equal-length unequal contents produce the error (never
`Ok(false)`), and unequal lengths always produce the error. -/
theorem compare_ct_spec (a b : List Nat) :
    (compare_ct a b = .ok true ↔ a = b) ∧
    (a.length = b.length → a ≠ b → compare_ct a b = .error .mk) ∧
    (a.length ≠ b.length → compare_ct a b = .error .mk) ∧
    (∀ r : Bool, compare_ct a b = .ok r → r = true) := by
  by_cases h1 : a.length = b.length
  · by_cases h2 : a = b
    · have hcc : compare_ct a b = .ok true := by
        rw [compare_ct, if_neg (by omega), if_pos h2]
      refine ⟨⟨fun _ => h2, fun _ => hcc⟩, fun _ hne => absurd h2 hne,
        fun hne => absurd h1 hne, ?_⟩
      intro r hr
      rw [hcc] at hr
      simp only [Except.ok.injEq] at hr
      exact hr.symm
    · have hcc : compare_ct a b = .error .mk := by
        rw [compare_ct, if_neg (by omega), if_neg h2]
      refine ⟨⟨fun hok => ?_, fun heq => absurd heq h2⟩, fun _ _ => hcc,
        fun hne => absurd h1 hne, ?_⟩
      · rw [hcc] at hok
        exact absurd hok (by simp)
      · intro r hr
        rw [hcc] at hr
        exact absurd hr (by simp)
  · have hcc : compare_ct a b = .error .mk := by
      rw [compare_ct, if_pos h1]
    refine ⟨⟨fun hok => ?_, fun heq => absurd (congrArg List.length heq) h1⟩,
      fun heq _ => absurd heq h1, fun _ => hcc, ?_⟩
    · rw [hcc] at hok
      exact absurd hok (by simp)
    · intro r hr
      rw [hcc] at hr
      exact absurd hr (by simp)

/-- Witness for C2 (amended) on concrete slices. -/
theorem compare_ct_spec_witness :
    compare_ct [2] [2] = .ok true ∧ compare_ct [0, 1] [0, 2] = .error .mk ∧
    compare_ct [] [0] = .error .mk :=
  ⟨(compare_ct_spec [2] [2]).1.mpr rfl,
   (compare_ct_spec [0, 1] [0, 2]).2.1 (by decide) (by decide),
   (compare_ct_spec [] [0]).2.2.1 (by decide)⟩

/-- Claim C7: any envelope whose length is not 128 is rejected with the
validation error, regardless of content and password. -/
theorem verify_password_hash_length_guard (env pwd : List Nat)
    (h : env.length ≠ 128) : verify_password_hash env pwd = .error .mk := by
  rw [verify_password_hash, if_pos h]

/-- Witness for C7 on a 3-byte envelope. -/
theorem verify_password_hash_length_guard_witness :
    verify_password_hash [1, 2, 3] [] = .error .mk :=
  verify_password_hash_length_guard [1, 2, 3] [] (by decide)

set_option maxRecDepth 40000 in
/-- Scenario S1 of the spec: the SHA-384 digest of the empty input matches
the published FIPS test vector, validating the modelled compression
kernel, constants and padding end to end. -/
theorem sha384_empty_vector :
    Sha384.digest [] = some (.ok
      [0x38, 0xb0, 0x60, 0xa7, 0x51, 0xac, 0x96, 0x38, 0x4c, 0xd9, 0x32, 0x7e,
       0xb1, 0xb1, 0xe3, 0x6a, 0x21, 0xfd, 0xb7, 0x11, 0x14, 0xbe, 0x07, 0x43,
       0x4c, 0x0c, 0xc7, 0xbf, 0x63, 0xf6, 0xe1, 0xda, 0x27, 0x4e, 0xde, 0xbf,
       0xe7, 0x6f, 0x65, 0xfb, 0xd5, 0x1a, 0xd2, 0xf1, 0x48, 0x98, 0xb9, 0x5b]) := by
  decide

set_option maxRecDepth 40000 in
/-- Scenario S2 of the spec: the SHA-384 digest of `"abc"` matches the
published FIPS test vector. -/
theorem sha384_abc_vector :
    Sha384.digest [0x61, 0x62, 0x63] = some (.ok
      [0xcb, 0x00, 0x75, 0x3f, 0x45, 0xa3, 0x5e, 0x8b, 0xb5, 0xa0, 0x3d, 0x69,
       0x9a, 0xc6, 0x50, 0x07, 0x27, 0x2c, 0x32, 0xab, 0x0e, 0xde, 0xd1, 0x63,
       0x1a, 0x8b, 0x60, 0x5a, 0x43, 0xff, 0x5b, 0xed, 0x80, 0x86, 0x07, 0x2b,
       0xa1, 0xe7, 0xcc, 0x23, 0x58, 0xba, 0xec, 0xa1, 0x34, 0xc8, 0x25, 0xa7]) := by
  decide

theorem compare_ct_self (a : List Nat) : compare_ct a a = .ok true := by
  rw [compare_ct, if_neg (by simp), if_pos rfl]

theorem compare_ct_ne (a b : List Nat) (hl : a.length = b.length) (hne : a ≠ b) :
    compare_ct a b = .error .mk := by
  rw [compare_ct, if_neg (by omega), if_neg hne]

theorem compress_length (h b : List Nat) : (compress h b).length = 8 := rfl

theorem chainRest_fst_length (fuel : Nat) : ∀ (h m : List Nat),
    h.length = 8 → (chainRest fuel h m).1.length = 8 := by
  induction fuel with
  | zero =>
    intro h m hh
    exact hh
  | succ n ih =>
    intro h m hh
    rw [chainRest]
    by_cases hc : 128 ≤ m.length
    · rw [if_pos hc]
      exact ih _ _ (compress_length _ _)
    · rw [if_neg hc]
      exact hh

theorem storeWordsBE_length (ws : List Nat) : (storeWordsBE ws).length = 8 * ws.length := by
  induction ws with
  | nil => rfl
  | cons w rest ih =>
    rw [storeWordsBE, List.length_append, ih]
    simp [wordBytesBE]
    omega

theorem sha512_hash_length (m : List Nat) : (sha512_hash m).length = 64 := by
  have h8 : (absorbSpec H0_512 (sha512_pad m)).1.length = 8 :=
    chainRest_fst_length _ _ _ (by rfl)
  rw [sha512_hash, storeWordsBE_length, h8]

theorem hmac_sha512_length (key msg : List Nat) : (hmac_sha512 key msg).length = 64 := by
  simp only [hmac_sha512]
  exact sha512_hash_length _

theorem xorBytes_length (a b : List Nat) :
    (xorBytes a b).length = min a.length b.length := by
  simp [xorBytes]

theorem pbkdf2F_go_length (p : List Nat) (k : Nat) : ∀ (u acc : List Nat),
    acc.length = 64 → (pbkdf2F_go p k u acc).length = 64 := by
  induction k with
  | zero =>
    intro u acc hacc
    exact hacc
  | succ n ih =>
    intro u acc hacc
    rw [pbkdf2F_go]
    apply ih
    rw [xorBytes_length, hacc, hmac_sha512_length]
    omega

theorem pbkdf2F_length (p s : List Nat) (c i : Nat) : (pbkdf2F p s c i).length = 64 := by
  simp only [pbkdf2F]
  exact pbkdf2F_go_length p (c - 1) _ _ (hmac_sha512_length _ _)

theorem derive_key_64_length (p s : List Nat) (c : Nat) :
    (pbkdf2_derive_key p s c 64).length = 64 := by
  rw [pbkdf2_derive_key]
  rw [show (64 + 63) / 64 = 1 from rfl]
  rw [pbkdf2Blocks, pbkdf2Blocks]
  rw [List.length_take, List.length_append, pbkdf2F_length]
  rfl

/-- Round-trip half of claim C3 (auxiliary): verifying the envelope
produced by `hash_password` with the same password succeeds. -/
theorem pwhash_roundtrip (p salt : List Nat) (hs : salt.length = 64) :
    verify_password_hash (hash_password p salt) p = .ok true := by
  have hdk := derive_key_64_length p salt 512000
  have hlen : (hash_password p salt).length = 128 := by
    rw [hash_password, List.length_append, hs, hdk]
  rw [verify_password_hash, if_neg (by omega)]
  rw [hash_password, List.drop_left' hs, List.take_left' hs]
  rw [pbkdf2_verify, compare_ct_self]

/-- Digest-region half of claim C3 (auxiliary): an envelope whose digest
suffix differs from the recomputed key is rejected. -/
theorem pwhash_digest_flip (p salt dk2 : List Nat) (hs : salt.length = 64)
    (hlen : dk2.length = 64) (hne : dk2 ≠ pbkdf2_derive_key p salt 512000 64) :
    verify_password_hash (salt ++ dk2) p = .error .mk := by
  have hdk := derive_key_64_length p salt 512000
  rw [verify_password_hash,
    if_neg (by rw [List.length_append, hs, hlen]; omega)]
  rw [List.drop_left' hs, List.take_left' hs]
  have hcc := compare_ct_ne (pbkdf2_derive_key p salt 512000 64) dk2
    (by rw [hdk, hlen]) (fun hc => hne hc.symm)
  rw [pbkdf2_verify, hcc]

end Orion
